import Mathlib

/-!
Verification development for the `deephash` package (`deephash.go` of the
moqueries/deephash repository, current version: the file defining `Hash`,
`Diff`, `deepHash`, `compareWriter` and `appendName`).

The Go code is shallowly embedded:

* A runtime value (`reflect.Value`) is modelled by the inductive `GoValue`.
  Machine integers are carried as `Int`/`Nat` together with their declared
  width; the byte encodings performed by `binary.Write` are made explicit
  (`be8`).  Floating point values are carried as the 64-bit IEEE-754 bit
  pattern that `reflect.Value.Float()` produces (the float32 → float64
  conversion itself is not modelled; only the resulting bit pattern enters
  the hash).  Strings are modelled with their code points as bytes, which
  coincides with Go's UTF-8 bytes on the ASCII strings used throughout.
* Go map iteration order is unspecified; a map value therefore carries its
  entries as an explicit list whose order stands for the iteration order.
* Addressability: `reflect.ValueOf` yields a non-addressable value; fields
  of an addressable struct, elements of slices (always) and of addressable
  arrays, and pointer targets are addressable.  An address is modelled as
  `List Nat`: a pointer target or slice backing array gets `[allocId]`, a
  field/element at index `i` of a value at address `a` gets `a ++ [i]`.
* `reflect.Type` equality used by the cycle guard is modelled by `TypeTag`,
  the structural head of a value together with numeric widths (named struct
  types are not distinguished).
* The `fieldWriter` sink abstraction is modelled by materialising the
  sequence of `Write(label, bytes)` calls a traversal performs, in call
  order; `Hash` folds the fnv64a accumulator over it (ignoring labels,
  as `noopFieldWriter` does) and `Diff` folds `compareWriter.Write`.
* `sort.Slice` sorts `elements` by sub-hash; it guarantees a permutation
  ordered by the comparator but is not stable.  The model uses the stable
  `List.mergeSort`, a deterministic refinement; order among tied sub-hashes
  remains a function of the (unspecified) iteration order, as in Go.
* The traversal is instrumented with one extra boolean output recording
  whether any cycle-guard skip fired; it affects nothing else and is used
  only to state side conditions (no real acyclic Go value ever skips).
-/

/-- Declared widths of Go's signed integer kinds (`int`, `int8`, …). -/
inductive IntW where
  | i | i8 | i16 | i32 | i64
deriving DecidableEq, Repr

/-- Declared widths of Go's unsigned integer kinds. -/
inductive UintW where
  | u | u8 | u16 | u32 | u64
deriving DecidableEq, Repr

/-- Go's floating point kinds. -/
inductive FloatW where
  | f32 | f64
deriving DecidableEq, Repr

/-- Model of a Go runtime value as seen through `reflect`.

`invalid` is the zero `reflect.Value`.  `ptrV none` is a nil pointer,
`ptrV (some (a, t))` a pointer whose target `t` lives in the allocation
with identity `a`.  `ifaceV` is an interface, possibly nil.  `sliceV`
carries the identity of its backing array (slice elements are always
addressable in Go).  `mapV` carries its entries in iteration order. -/
inductive GoValue where
  | invalid
  | str (s : String)
  | boolean (b : Bool)
  | intV (w : IntW) (v : Int)
  | uintV (w : UintW) (v : Nat)
  | floatV (w : FloatW) (bits : Nat)
  | structV (fields : List (String × GoValue))
  | sliceV (base : Nat) (elems : List GoValue)
  | arrayV (elems : List GoValue)
  | mapV (entries : List (GoValue × GoValue))
  | ptrV (tgt : Option (Nat × GoValue))
  | ifaceV (tgt : Option GoValue)

namespace DeepHash

/-- `src.IsValid()`. -/
def isValidV : GoValue → Bool
  | .invalid => false
  | _ => true

/-- Model of `reflect.Type` equality as used by the cycle guard: the
structural head of the value plus numeric widths.  (Named types are not
distinguished; this only coarsens, never refines, Go type equality.) -/
inductive TypeTag where
  | invalidT | strT | boolT
  | intT (w : IntW) | uintT (w : UintW) | floatT (w : FloatW)
  | structT | sliceT | arrayT | mapT | ptrT | ifaceT
deriving DecidableEq, Repr

/-- `src.Type()` for guard purposes. -/
def typeTag : GoValue → TypeTag
  | .invalid => .invalidT
  | .str _ => .strT
  | .boolean _ => .boolT
  | .intV w _ => .intT w
  | .uintV w _ => .uintT w
  | .floatV w _ => .floatT w
  | .structV _ => .structT
  | .sliceV _ _ => .sliceT
  | .arrayV _ => .arrayT
  | .mapV _ => .mapT
  | .ptrV _ => .ptrT
  | .ifaceV _ => .ifaceT

/-- The kind-dependent type name used by `reflect.Value.String()` for
non-string kinds (`"<int Value>"` etc.).  Named struct types are not
modelled, so aggregate kinds get their kind name. -/
def typeName : GoValue → String
  | .invalid => "invalid"
  | .str _ => "string"
  | .boolean _ => "bool"
  | .intV .i _ => "int"
  | .intV .i8 _ => "int8"
  | .intV .i16 _ => "int16"
  | .intV .i32 _ => "int32"
  | .intV .i64 _ => "int64"
  | .uintV .u _ => "uint"
  | .uintV .u8 _ => "uint8"
  | .uintV .u16 _ => "uint16"
  | .uintV .u32 _ => "uint32"
  | .uintV .u64 _ => "uint64"
  | .floatV .f32 _ => "float32"
  | .floatV .f64 _ => "float64"
  | .structV _ => "struct"
  | .sliceV _ _ => "slice"
  | .arrayV _ => "array"
  | .mapV _ => "map"
  | .ptrV _ => "ptr"
  | .ifaceV _ => "interface"

/-- `reflect.Value.String()`: the string itself for string kind, the
`"<T Value>"` placeholder otherwise.  This is the display form `deepHash`
uses for map-key path labels (`el.k.String()`). -/
def valueString : GoValue → String
  | .str s => s
  | v => "<" ++ typeName v ++ " Value>"

/-! ## Byte encodings and the fnv64a accumulator -/

/-- Two to the 64, the modulus of Go's 64-bit machine arithmetic. -/
def two64 : Nat := 18446744073709551616

/-- Big-endian encoding of the low 64 bits of `n` into 8 bytes, as
performed by `binary.Write(w, binary.BigEndian, x)` for a 64-bit `x`. -/
def be8 (n : Nat) : List Nat :=
  [n / 72057594037927936 % 256,
   n / 281474976710656 % 256,
   n / 1099511627776 % 256,
   n / 4294967296 % 256,
   n / 16777216 % 256,
   n / 65536 % 256,
   n / 256 % 256,
   n % 256]

/-- The two's complement 64-bit image of a signed value, i.e. the `uint64`
bit pattern of `src.Int()`. -/
def intToU64 (v : Int) : Nat := (v % (18446744073709551616 : Int)).toNat

/-- UTF-8 bytes of a string; on the ASCII data used by this code the code
points are the bytes. -/
def strBytes (s : String) : List Nat := s.data.map Char.toNat

/-- fnv64a offset basis (`fnv.New64a()` initial state). -/
def fnvBasis : Nat := 14695981039346656037

/-- fnv64a prime. -/
def fnvPrime : Nat := 1099511628211

/-- One fnv64a step: xor in a byte, multiply by the prime mod 2^64. -/
def fnvStep (h b : Nat) : Nat := ((h ^^^ b) * fnvPrime) % two64

/-- `Sum64` of an fnv64a accumulator fed the given bytes in order. -/
def fnv64 (bs : List Nat) : Nat := bs.foldl fnvStep fnvBasis

/-! ## Association lists: Go map operations

Go maps are modelled as association lists in insertion order: lookup,
store (overwrite in place, else append) and delete.  Iteration over a Go
map is unordered; the model iterates in insertion order. -/

/-- `m[k]` with its `ok` flag collapsed into `Option`. -/
def lookupA {κ ν : Type} [DecidableEq κ] : List (κ × ν) → κ → Option ν
  | [], _ => none
  | p :: rest, k => if p.1 = k then some p.2 else lookupA rest k

/-- Key presence: the `ok` of `v, ok := m[k]`. -/
def containsA {κ ν : Type} [DecidableEq κ] (m : List (κ × ν)) (k : κ) : Bool :=
  (lookupA m k).isSome

/-- `m[k] = v`: overwrite in place when present, append when absent. -/
def storeA {κ ν : Type} [DecidableEq κ] : List (κ × ν) → κ → ν → List (κ × ν)
  | [], k, v => [(k, v)]
  | p :: rest, k, v => if p.1 = k then (k, v) :: rest else p :: storeA rest k v

/-- `delete(m, k)`. -/
def removeA {κ ν : Type} [DecidableEq κ] (m : List (κ × ν)) (k : κ) : List (κ × ν) :=
  m.filter (fun p => ¬(p.1 = k))

/-! ## The cycle guard state

`visited map[uintptr][]reflect.Type`, keyed by the modelled address. -/

/-- An address: an allocation identity followed by the field/element path
within that allocation. -/
abbrev Addr := List Nat

/-- The `visited` map of `deepHash`. -/
abbrev Guard := List (Addr × List TypeTag)

/-- `visited[h]` defaulted to the empty type list (Go's zero value for a
missing key). -/
def lookupGD (g : Guard) (a : Addr) : List TypeTag :=
  (lookupA g a).getD []

/-! ## Path naming -/

/-- The `namedType` enumeration of the source. -/
inductive NamedType where
  | defaultT | mapKeyT | indexedT
deriving DecidableEq, Repr

/-- `appendName(base, field, nt)`: returns `""` when `base` is empty,
otherwise concatenates `base` with `.field`, `[field-key]` or `[field]`
according to the kind. -/
def appendName (base field : String) (nt : NamedType) : String :=
  if base = "" then ""
  else
    match nt with
    | .defaultT => base ++ "." ++ field
    | .mapKeyT => base ++ "[" ++ field ++ "-key]"
    | .indexedT => base ++ "[" ++ field ++ "]"

/-- ` is not equal`, the suffix appended to every difference label. -/
def notEq : String := " is not equal"

/-! ## Pointer/interface indirection

The `for src.Kind() == reflect.Ptr || src.Kind() == reflect.Interface`
loop of `deepHash`, tracking addressability: a pointer target is
addressable at its allocation, an interface element is not addressable,
and `Elem()` of a nil pointer/interface is the invalid value. -/

def derefV : GoValue → Bool → Addr → GoValue × Bool × Addr
  | .ptrV none, _, _ => (.invalid, false, [])
  | .ptrV (some (a, t)), _, _ => derefV t true [a]
  | .ifaceV none, _, _ => (.invalid, false, [])
  | .ifaceV (some t), _, _ => derefV t false []
  | v, ca, ad => (v, ca, ad)

/-! ## Size measures for termination -/

mutual
/-- Structural size of a value, ignoring numeric payloads (so that the
sub-hash recursion on map entries can be measured). -/
def gsize : GoValue → Nat
  | .invalid => 1
  | .str _ => 1
  | .boolean _ => 1
  | .intV _ _ => 1
  | .uintV _ _ => 1
  | .floatV _ _ => 1
  | .structV fs => 1 + gsizeFields fs
  | .sliceV _ es => 1 + gsizeList es
  | .arrayV es => 1 + gsizeList es
  | .mapV en => 1 + gsizeEntries en
  | .ptrV none => 1
  | .ptrV (some (_, t)) => 1 + gsize t
  | .ifaceV none => 1
  | .ifaceV (some t) => 1 + gsize t

def gsizeFields : List (String × GoValue) → Nat
  | [] => 0
  | p :: rest => 1 + gsize p.2 + gsizeFields rest

def gsizeList : List GoValue → Nat
  | [] => 0
  | v :: rest => 1 + gsize v + gsizeList rest

def gsizeEntries : List (GoValue × GoValue) → Nat
  | [] => 0
  | p :: rest => 1 + gsize p.1 + gsize p.2 + gsizeEntries rest
end

/-- Size of a sub-hash/key/value triple list (the sorted `elements`
slice of the map case). -/
def gsizeTriples : List (Nat × GoValue × GoValue) → Nat
  | [] => 0
  | t :: rest => 1 + gsize t.2.1 + gsize t.2.2 + gsizeTriples rest

theorem gsize_pos : ∀ v : GoValue, 0 < gsize v := by
  intro v
  cases v with
  | ptrV tgt =>
    match tgt with
    | none => simp only [gsize]; omega
    | some (a, t) => simp only [gsize]; omega
  | ifaceV tgt =>
    match tgt with
    | none => simp only [gsize]; omega
    | some t => simp only [gsize]; omega
  | _ =>
    simp only [gsize]
    omega

theorem derefV_gsize_le (v : GoValue) (ca : Bool) (ad : Addr) :
    gsize (derefV v ca ad).1 ≤ gsize v := by
  induction v, ca, ad using derefV.induct <;> simp_all [derefV, gsize] <;> omega

theorem gsizeTriples_perm {l₁ l₂ : List (Nat × GoValue × GoValue)} (h : l₁.Perm l₂) :
    gsizeTriples l₁ = gsizeTriples l₂ := by
  induction h with
  | nil => rfl
  | cons x _ ih => simp only [gsizeTriples]; omega
  | swap x y l => simp only [gsizeTriples]; omega
  | trans _ _ ih₁ ih₂ => omega

theorem gsizeTriples_zip_le :
    ∀ (khs : List Nat) (entries : List (GoValue × GoValue)),
      gsizeTriples (khs.zip entries) ≤ gsizeEntries entries := by
  intro khs
  induction khs with
  | nil =>
    intro entries
    simp only [List.zip_nil_left, gsizeTriples]
    omega
  | cons kh rest ih =>
    intro entries
    cases entries with
    | nil => simp only [List.zip_nil_right, gsizeTriples]; omega
    | cons e es =>
      have h := ih es
      simp only [List.zip_cons_cons, List.zip_eq_zipWith, gsizeTriples, gsizeEntries] at h ⊢
      omega

/-! ## The traversal engine

`deepHash(src, field, h, visited)` of the source, with the `fieldWriter`
replaced by the materialised write sequence and one instrumentation bit
(whether any cycle-guard skip fired anywhere).  Each function returns
`(writes, visited', skipped)`. -/

/-- The sequence of `Write(label, bytes)` calls of a traversal. -/
abbrev Writes := List (String × List Nat)

/-- The byte stream a `noopFieldWriter` (hence the fnv64a accumulator)
receives: the concatenated byte fragments, labels ignored. -/
def bytesOfWrites (ws : Writes) : List Nat := (ws.map Prod.snd).flatten

/-- Comparator of the map-case `sort.Slice` call: ascending key sub-hash. -/
def mapLe (a b : Nat × GoValue × GoValue) : Bool := decide (a.1 ≤ b.1)

theorem gsizeTriples_sorted_zip_lt (khs : List Nat) (entries : List (GoValue × GoValue)) :
    gsizeTriples ((khs.zip entries).mergeSort mapLe) < 1 + gsizeEntries entries := by
  have h1 : gsizeTriples ((khs.zip entries).mergeSort mapLe)
      = gsizeTriples (khs.zip entries) :=
    gsizeTriples_perm (List.mergeSort_perm _ mapLe)
  have h2 := gsizeTriples_zip_le khs entries
  omega

mutual
/-- The recursive hasher.  Mirrors the source line for line: invalid check,
cycle guard (check, push, and the deferred pop distinguishing a fresh
identity from an appended type), pointer/interface dereference, then the
kind switch via `walk`. -/
def deepHash (src : GoValue) (canAddr : Bool) (addr : Addr) (field : String) (g : Guard) :
    Writes × Guard × Bool :=
  if isValidV src = false then ([], g, false)
  else if canAddr then
    let seen := lookupGD g addr
    if typeTag src ∈ seen then ([], g, true)
    else
      let prevSeen := containsA g addr
      let d := derefV src canAddr addr
      let r := walk d.1 d.2.1 d.2.2 field (storeA g addr (seen ++ [typeTag src]))
      (r.1,
       (if prevSeen then storeA r.2.1 addr (lookupGD r.2.1 addr).dropLast
        else removeA r.2.1 addr),
       r.2.2)
  else
    let d := derefV src canAddr addr
    walk d.1 d.2.1 d.2.2 field g
termination_by (gsize src, 2)
decreasing_by
  all_goals
    rcases Nat.lt_or_ge (gsize (derefV src canAddr addr).1) (gsize src) with h | h
  · exact Prod.Lex.left _ _ h
  · have h2 := derefV_gsize_le src canAddr addr
    have h3 : gsize (derefV src canAddr addr).1 = gsize src := Nat.le_antisymm h2 h
    rw [h3]
    exact Prod.Lex.right _ (by omega)
  · exact Prod.Lex.left _ _ h
  · have h2 := derefV_gsize_le src canAddr addr
    have h3 : gsize (derefV src canAddr addr).1 = gsize src := Nat.le_antisymm h2 h
    rw [h3]
    exact Prod.Lex.right _ (by omega)

/-- The kind switch of `deepHash`, applied to the dereferenced value. -/
def walk (v : GoValue) (ca : Bool) (ad : Addr) (field : String) (g : Guard) :
    Writes × Guard × Bool :=
  match v with
  | .structV fs => walkFields fs 0 ca ad field g
  | .mapV entries =>
      let kr := keyHashList entries g
      let sorted := (kr.1.zip entries).mergeSort mapLe
      let er := walkEntries sorted field kr.2.1
      (er.1, er.2.1, kr.2.2 || er.2.2)
  | .sliceV base es => walkElems es 0 true [base] field g
  | .arrayV es => walkElems es 0 ca ad field g
  | .str s => ([(field, strBytes s)], g, false)
  | .boolean b => ([(field, [if b then 49 else 48])], g, false)
  | .intV _ x => ([(field, be8 (intToU64 x))], g, false)
  | .uintV _ x => ([(field, be8 (x % two64))], g, false)
  | .floatV _ bits => ([(field, be8 (bits % two64))], g, false)
  | _ => ([], g, false)
termination_by (gsize v, 1)
decreasing_by
  · apply Prod.Lex.left
    simp only [gsize]
    omega
  · apply Prod.Lex.left
    simp only [gsize]
    omega
  · apply Prod.Lex.left
    simp only [gsize]
    exact gsizeTriples_sorted_zip_lt _ entries
  · apply Prod.Lex.left
    simp only [gsize]
    omega
  · apply Prod.Lex.left
    simp only [gsize]
    omega

/-- The struct case: fields in declaration order, labels `.fieldName`
(only when path tracking is on), each field addressable iff the struct
is. -/
def walkFields (fs : List (String × GoValue)) (i : Nat) (ca : Bool) (ad : Addr)
    (field : String) (g : Guard) : Writes × Guard × Bool :=
  match fs with
  | [] => ([], g, false)
  | (name, fv) :: rest =>
      let nm := if field = "" then "" else appendName field name .defaultT
      let r := deepHash fv ca (ad ++ [i]) nm g
      let rr := walkFields rest (i + 1) ca ad field r.2.1
      (r.1 ++ rr.1, rr.2.1, r.2.2 || rr.2.2)
termination_by (gsizeFields fs, 0)
decreasing_by
  all_goals apply Prod.Lex.left
  all_goals simp only [gsizeFields]
  · have := gsize_pos fv
    omega
  · omega

/-- First loop of the map case: the sub-hash of each key, computed by the
same engine against a fresh fnv64a sink (keys are not addressable), with
`visited` threaded through. -/
def keyHashList (entries : List (GoValue × GoValue)) (g : Guard) :
    List Nat × Guard × Bool :=
  match entries with
  | [] => ([], g, false)
  | (k, _) :: rest =>
      let r := deepHash k false [] "" g
      let rr := keyHashList rest r.2.1
      (fnv64 (bytesOfWrites r.1) :: rr.1, rr.2.1, r.2.2 || rr.2.2)
termination_by (gsizeEntries entries, 0)
decreasing_by
  all_goals apply Prod.Lex.left
  all_goals simp only [gsizeEntries]
  all_goals omega

/-- Second loop of the map case: for each element in sub-hash order, write
the key's sub-hash as 8 big-endian bytes under the `[key-key]` label, then
recurse into the value under the `[key]` label (map values are not
addressable). -/
def walkEntries (ts : List (Nat × GoValue × GoValue)) (field : String) (g : Guard) :
    Writes × Guard × Bool :=
  match ts with
  | [] => ([], g, false)
  | (kh, k, v) :: rest =>
      let r := deepHash v false [] (appendName field (valueString k) .indexedT) g
      let rr := walkEntries rest field r.2.1
      ((appendName field (valueString k) .mapKeyT, be8 kh) :: (r.1 ++ rr.1),
       rr.2.1, r.2.2 || rr.2.2)
termination_by (gsizeTriples ts, 0)
decreasing_by
  all_goals apply Prod.Lex.left
  all_goals simp only [gsizeTriples]
  all_goals omega

/-- The slice/array case: elements in index order with `[i]` labels; slice
elements are addressable at the backing array, array elements inherit the
array's addressability. -/
def walkElems (es : List GoValue) (i : Nat) (ca : Bool) (ad : Addr)
    (field : String) (g : Guard) : Writes × Guard × Bool :=
  match es with
  | [] => ([], g, false)
  | e :: rest =>
      let r := deepHash e ca (ad ++ [i]) (appendName field (toString i) .indexedT) g
      let rr := walkElems rest (i + 1) ca ad field r.2.1
      (r.1 ++ rr.1, rr.2.1, r.2.2 || rr.2.2)
termination_by (gsizeList es, 0)
decreasing_by
  all_goals apply Prod.Lex.left
  all_goals simp only [gsizeList]
  all_goals omega
end

/-! ## The public operations -/

/-- `Hash(src)`: run the traversal against a fresh fnv64a accumulator
(`noopFieldWriter`) with no path tracking and a fresh `visited` map, and
return `Sum64`.  `reflect.ValueOf(src)` is never addressable. -/
def Hash (v : GoValue) : Nat :=
  fnv64 (bytesOfWrites (deepHash v false [] "" []).1)

/-- The `compareWriter` state: recorded fragments per label, accumulated
differences, and the phase flag. -/
structure CompareW where
  writes : List (String × List Nat)
  diffs : List String
  comparing : Bool

/-- `compareWriter.Write(f, p)`.  Recording phase: store (a second write to
the same label overwrites).  Comparing phase: a missing or byte-unequal
recorded fragment appends `"<label> is not equal"` (an empty label reads
`value`), and the label is consumed either way.  The returned `error` is
always `nil`, modelled as `none`. -/
def cwWrite (w : CompareW) (f : String) (p : List Nat) : CompareW × Option String :=
  if w.comparing = false then
    ({ w with writes := storeA w.writes f p }, none)
  else
    let found := lookupA w.writes f
    let mismatch := match found with
      | none => true
      | some prevP => decide (¬(p = prevP))
    if mismatch then
      ({ w with writes := removeA w.writes f,
                diffs := w.diffs ++ [(if f = "" then "value" else f) ++ notEq] }, none)
    else
      ({ w with writes := removeA w.writes f }, none)

/-- Feed a traversal's write sequence into the compare writer in call
order (the errors are all `nil` and the source would only panic on a
non-nil one). -/
def cwWriteAll (w : CompareW) (ws : Writes) : CompareW :=
  ws.foldl (fun acc p => (cwWrite acc p.1 p.2).1) w

/-- `Diff(field, lSrc, rSrc)`: normalise an empty root label to `value`,
record the left side's fragments, compare the right side's fragments, then
report every label still recorded (present left, absent right). -/
def Diff (field : String) (l r : GoValue) : List String :=
  let field := if field = "" then "value" else field
  let cw1 := cwWriteAll ⟨[], [], false⟩ (deepHash l false [] field []).1
  let cw2 := cwWriteAll { cw1 with comparing := true } (deepHash r false [] field []).1
  cw2.diffs ++ cw2.writes.map (fun p => p.1 ++ notEq)

/-- The sub-hash a key receives inside the map case when the traversal
starts from `Hash`/`Diff` (fresh `visited`): `subH.Sum64()` after
`deepHash(key, "", noopFieldWriter{subH}, visited)`. -/
def keyHash (k : GoValue) : Nat := fnv64 (bytesOfWrites (deepHash k false [] "" []).1)

/-- The labels of a write sequence. -/
def labelsW (ws : Writes) : List String := ws.map Prod.fst

/-! ## The guard-free traversal

`plainWrites` is the write sequence of a traversal in which the cycle
guard never fires, used to state and prove that the guard is inert on
values where no skip occurs (every tree-shaped Go value). -/

def derefPlain : GoValue → GoValue
  | .ptrV none => .invalid
  | .ptrV (some (_, t)) => derefPlain t
  | .ifaceV none => .invalid
  | .ifaceV (some t) => derefPlain t
  | v => v

theorem derefPlain_gsize_le (v : GoValue) : gsize (derefPlain v) ≤ gsize v := by
  induction v using derefPlain.induct <;> simp_all [derefPlain, gsize] <;> omega

theorem derefV_fst_eq_derefPlain (v : GoValue) (ca : Bool) (ad : Addr) :
    (derefV v ca ad).1 = derefPlain v := by
  induction v, ca, ad using derefV.induct <;> simp_all [derefV, derefPlain]

mutual
def plainWrites (src : GoValue) (field : String) : Writes :=
  if isValidV src = false then []
  else plainWalk (derefPlain src) field
termination_by (gsize src, 2)
decreasing_by
  rcases Nat.lt_or_ge (gsize (derefPlain src)) (gsize src) with h | h
  · exact Prod.Lex.left _ _ h
  · have h2 := derefPlain_gsize_le src
    have h3 : gsize (derefPlain src) = gsize src := Nat.le_antisymm h2 h
    rw [h3]
    exact Prod.Lex.right _ (by omega)

def plainWalk (v : GoValue) (field : String) : Writes :=
  match v with
  | .structV fs => plainFields fs field
  | .mapV entries =>
      let khs := plainKeyHashes entries
      let sorted := (khs.zip entries).mergeSort mapLe
      plainEntries sorted field
  | .sliceV _ es => plainElems es 0 field
  | .arrayV es => plainElems es 0 field
  | .str s => [(field, strBytes s)]
  | .boolean b => [(field, [if b then 49 else 48])]
  | .intV _ x => [(field, be8 (intToU64 x))]
  | .uintV _ x => [(field, be8 (x % two64))]
  | .floatV _ bits => [(field, be8 (bits % two64))]
  | _ => []
termination_by (gsize v, 1)
decreasing_by
  · apply Prod.Lex.left
    simp only [gsize]
    omega
  · apply Prod.Lex.left
    simp only [gsize]
    omega
  · apply Prod.Lex.left
    simp only [gsize]
    exact gsizeTriples_sorted_zip_lt _ entries
  · apply Prod.Lex.left
    simp only [gsize]
    omega
  · apply Prod.Lex.left
    simp only [gsize]
    omega

def plainFields (fs : List (String × GoValue)) (field : String) : Writes :=
  match fs with
  | [] => []
  | (name, fv) :: rest =>
      let nm := if field = "" then "" else appendName field name .defaultT
      plainWrites fv nm ++ plainFields rest field
termination_by (gsizeFields fs, 0)
decreasing_by
  all_goals apply Prod.Lex.left
  all_goals simp only [gsizeFields]
  all_goals omega

def plainKeyHashes (entries : List (GoValue × GoValue)) : List Nat :=
  match entries with
  | [] => []
  | (k, _) :: rest => fnv64 (bytesOfWrites (plainWrites k "")) :: plainKeyHashes rest
termination_by (gsizeEntries entries, 0)
decreasing_by
  all_goals apply Prod.Lex.left
  all_goals simp only [gsizeEntries]
  all_goals omega

def plainEntries (ts : List (Nat × GoValue × GoValue)) (field : String) : Writes :=
  match ts with
  | [] => []
  | (kh, k, v) :: rest =>
      (appendName field (valueString k) .mapKeyT, be8 kh)
        :: (plainWrites v (appendName field (valueString k) .indexedT)
            ++ plainEntries rest field)
termination_by (gsizeTriples ts, 0)
decreasing_by
  all_goals apply Prod.Lex.left
  all_goals simp only [gsizeTriples]
  all_goals omega

def plainElems (es : List GoValue) (i : Nat) (field : String) : Writes :=
  match es with
  | [] => []
  | e :: rest =>
      plainWrites e (appendName field (toString i) .indexedT)
        ++ plainElems rest (i + 1) field
termination_by (gsizeList es, 0)
decreasing_by
  all_goals apply Prod.Lex.left
  all_goals simp only [gsizeList]
  all_goals omega
end

/-! ## Association list lemmas (Go map semantics) -/

section AssocLemmas

variable {κ ν : Type} [DecidableEq κ]

theorem lookupA_mem {m : List (κ × ν)} {k : κ} {v : ν}
    (h : lookupA m k = some v) : (k, v) ∈ m := by
  induction m with
  | nil => simp [lookupA] at h
  | cons p rest ih =>
    obtain ⟨p1, p2⟩ := p
    by_cases hp : p1 = k
    · simp only [lookupA, if_pos hp] at h
      simp only [Option.some_inj] at h
      subst hp
      subst h
      exact List.mem_cons_self _ _
    · simp only [lookupA, if_neg hp] at h
      exact List.mem_cons_of_mem _ (ih h)

theorem containsA_false_iff {m : List (κ × ν)} {k : κ} :
    containsA m k = false ↔ lookupA m k = none := by
  simp only [containsA]
  cases lookupA m k <;> simp

theorem lookupA_none_iff {m : List (κ × ν)} {k : κ} :
    lookupA m k = none ↔ k ∉ m.map Prod.fst := by
  induction m with
  | nil => simp [lookupA]
  | cons p rest ih =>
    obtain ⟨p1, p2⟩ := p
    by_cases hp : p1 = k
    · subst hp
      simp [lookupA]
    · simp only [lookupA, if_neg hp, List.map_cons, List.mem_cons]
      rw [ih]
      constructor
      · intro h1 h2
        rcases h2 with h2 | h2
        · exact hp h2.symm
        · exact h1 h2
      · intro h1 h2
        exact h1 (Or.inr h2)

theorem mem_lookupA_nodup {m : List (κ × ν)} {k : κ} {v : ν}
    (hnd : (m.map Prod.fst).Nodup) (h : (k, v) ∈ m) : lookupA m k = some v := by
  induction m with
  | nil => simp at h
  | cons p rest ih =>
    obtain ⟨p1, p2⟩ := p
    simp only [List.map_cons, List.nodup_cons] at hnd
    rcases List.mem_cons.mp h with h1 | h1
    · obtain ⟨h2, h3⟩ := Prod.mk.injEq .. ▸ h1.symm
      simp [lookupA, h2.symm, h3]
    · have hne : ¬(p1 = k) := by
        intro hh
        subst hh
        exact hnd.1 (List.mem_map.mpr ⟨(p1, v), h1, rfl⟩)
      simp only [lookupA, if_neg hne]
      exact ih hnd.2 h1

theorem lookupA_append_left {a b : List (κ × ν)} {k : κ} {v : ν}
    (h : lookupA a k = some v) : lookupA (a ++ b) k = some v := by
  induction a with
  | nil => simp [lookupA] at h
  | cons p rest ih =>
    by_cases hp : p.1 = k
    · simp only [lookupA, if_pos hp] at h ⊢
      exact h
    · simp only [lookupA, if_neg hp] at h ⊢
      exact ih h

theorem lookupA_append_right {a b : List (κ × ν)} {k : κ}
    (h : lookupA a k = none) : lookupA (a ++ b) k = lookupA b k := by
  induction a with
  | nil => simp
  | cons p rest ih =>
    by_cases hp : p.1 = k
    · simp only [lookupA, if_pos hp] at h
      exact absurd h (by simp)
    · simp only [lookupA, if_neg hp] at h ⊢
      exact ih h

theorem containsA_append_false {a b : List (κ × ν)} {k : κ}
    (ha : containsA a k = false) (hb : containsA b k = false) :
    containsA (a ++ b) k = false := by
  rw [containsA_false_iff] at ha hb ⊢
  rw [lookupA_append_right ha]
  exact hb

theorem lookupA_removeA_other {m : List (κ × ν)} {k k' : κ} (h : ¬(k' = k)) :
    lookupA (removeA m k) k' = lookupA m k' := by
  induction m with
  | nil => rfl
  | cons p rest ih =>
    obtain ⟨p1, p2⟩ := p
    by_cases hp : p1 = k
    · have : (decide ¬((p1, p2).1 = k)) = false := by simp [hp]
      simp only [removeA, List.filter_cons, this, Bool.false_eq_true, if_neg,
        not_false_iff]
      have hp' : ¬(p1 = k') := by rw [hp]; exact fun hh => h hh.symm
      simp only [lookupA, if_neg hp']
      simpa [removeA] using ih
    · have : (decide ¬((p1, p2).1 = k)) = true := by simp [hp]
      simp only [removeA, List.filter_cons, this, if_pos]
      by_cases hp' : p1 = k'
      · simp [lookupA, hp']
      · simp only [lookupA, if_neg hp']
        simpa [removeA] using ih

theorem lookupA_storeA_self (m : List (κ × ν)) (k : κ) (v : ν) :
    lookupA (storeA m k v) k = some v := by
  induction m with
  | nil => simp [storeA, lookupA]
  | cons p rest ih =>
    by_cases h : p.1 = k
    · simp [storeA, h, lookupA]
    · simp [storeA, h, lookupA, ih]

theorem lookupA_storeA_other (m : List (κ × ν)) {k k' : κ} (v : ν) (h : k' ≠ k) :
    lookupA (storeA m k v) k' = lookupA m k' := by
  have h' : ¬(k = k') := fun hh => h hh.symm
  induction m with
  | nil => simp [storeA, lookupA, h']
  | cons p rest ih =>
    obtain ⟨p1, p2⟩ := p
    by_cases hp : p1 = k
    · subst hp
      simp only [storeA, if_pos rfl, lookupA]
      rw [if_neg h', if_neg h']
    · simp only [storeA, if_neg hp, lookupA]
      by_cases hp' : p1 = k'
      · rw [if_pos hp', if_pos hp']
      · rw [if_neg hp', if_neg hp']
        exact ih

theorem storeA_storeA (m : List (κ × ν)) (k : κ) (v w : ν) :
    storeA (storeA m k v) k w = storeA m k w := by
  induction m with
  | nil => simp [storeA]
  | cons p rest ih =>
    by_cases h : p.1 = k
    · simp [storeA, h]
    · simp [storeA, h, ih]

theorem storeA_lookupA_self (m : List (κ × ν)) {k : κ} {v : ν}
    (h : lookupA m k = some v) : storeA m k v = m := by
  induction m with
  | nil => simp [lookupA] at h
  | cons p rest ih =>
    obtain ⟨p1, p2⟩ := p
    by_cases hp : p1 = k
    · simp only [lookupA, if_pos hp] at h
      simp only [Option.some_inj] at h
      simp only [storeA, if_pos hp]
      rw [← h, hp]
    · simp only [lookupA, if_neg hp] at h
      simp only [storeA, if_neg hp]
      rw [ih h]

theorem storeA_absent (m : List (κ × ν)) {k : κ} (v : ν)
    (h : containsA m k = false) : storeA m k v = m ++ [(k, v)] := by
  induction m with
  | nil => simp [storeA]
  | cons p rest ih =>
    obtain ⟨p1, p2⟩ := p
    simp only [containsA, lookupA] at h
    by_cases hp : p1 = k
    · rw [if_pos hp] at h
      simp at h
    · rw [if_neg hp] at h
      have hr : containsA rest k = false := h
      simp only [storeA, if_neg hp]
      rw [ih hr]
      rfl

theorem removeA_absent (m : List (κ × ν)) {k : κ}
    (h : containsA m k = false) : removeA m k = m := by
  induction m with
  | nil => rfl
  | cons p rest ih =>
    obtain ⟨p1, p2⟩ := p
    simp only [containsA, lookupA] at h
    by_cases hp : p1 = k
    · rw [if_pos hp] at h
      simp at h
    · rw [if_neg hp] at h
      have hr : containsA rest k = false := h
      have hkeep : (decide ¬((p1, p2).1 = k)) = true := by simp [hp]
      simp only [removeA, List.filter_cons, hkeep, if_pos]
      have := ih hr
      simp only [removeA] at this
      rw [this]

theorem removeA_storeA_absent (m : List (κ × ν)) {k : κ} (v : ν)
    (h : containsA m k = false) : removeA (storeA m k v) k = m := by
  rw [storeA_absent m v h]
  have h1 : removeA m k = m := removeA_absent m h
  simp only [removeA, List.filter_append] at h1 ⊢
  rw [h1]
  simp

end AssocLemmas

theorem lookupGD_storeA_self (g : Guard) (a : Addr) (ts : List TypeTag) :
    lookupGD (storeA g a ts) a = ts := by
  simp [lookupGD, lookupA_storeA_self]

/-! ## Guard restoration

Every call to `deepHash` leaves the `visited` map exactly as it found it:
the deferred pop undoes the push (removing the appended type, or the whole
identity when it was fresh), and all inner mutation is likewise undone. -/

theorem restore_all :
    (∀ (src : GoValue) (canAddr : Bool) (addr : Addr) (field : String) (g : Guard),
        (deepHash src canAddr addr field g).2.1 = g) ∧
    (∀ (v : GoValue) (ca : Bool) (ad : Addr) (field : String) (g : Guard),
        (walk v ca ad field g).2.1 = g) ∧
    (∀ (es : List GoValue) (i : Nat) (ca : Bool) (ad : Addr) (field : String) (g : Guard),
        (walkElems es i ca ad field g).2.1 = g) ∧
    (∀ (ts : List (Nat × GoValue × GoValue)) (field : String) (g : Guard),
        (walkEntries ts field g).2.1 = g) ∧
    (∀ (entries : List (GoValue × GoValue)) (g : Guard),
        (keyHashList entries g).2.1 = g) ∧
    (∀ (fs : List (String × GoValue)) (i : Nat) (ca : Bool) (ad : Addr) (field : String)
        (g : Guard), (walkFields fs i ca ad field g).2.1 = g) := by
  apply deepHash.mutual_induct
  · -- deepHash: invalid value
    intro src canAddr addr field g hv
    simp [deepHash, hv]
  · -- deepHash: guard skip
    intro src addr field g hv seen hmem
    have hv' : isValidV src = true := by revert hv; cases isValidV src <;> simp
    have hmem' : typeTag src ∈ lookupGD g addr := hmem
    simp [deepHash, hv', hmem']
  · -- deepHash: guard push / deferred pop
    intro src addr field g hv seen hmem d ihw
    have hv' : isValidV src = true := by revert hv; cases isValidV src <;> simp
    have hmem' : typeTag src ∉ lookupGD g addr := hmem
    have ihw' : (walk (derefV src true addr).1 (derefV src true addr).2.1
        (derefV src true addr).2.2 field
        (storeA g addr (lookupGD g addr ++ [typeTag src]))).2.1
        = storeA g addr (lookupGD g addr ++ [typeTag src]) := ihw
    by_cases hprev : containsA g addr = true
    · simp only [deepHash, hv', Bool.true_eq_false, if_false, if_true, if_neg hmem',
        ihw', hprev]
      rw [lookupGD_storeA_self, List.dropLast_concat, storeA_storeA]
      have hl : lookupA g addr = some (lookupGD g addr) := by
        simp only [containsA] at hprev
        simp only [lookupGD]
        cases h : lookupA g addr with
        | none => rw [h] at hprev; simp at hprev
        | some x => simp
      exact storeA_lookupA_self g hl
    · have hprev' : containsA g addr = false := by simpa using hprev
      simp only [deepHash, hv', Bool.true_eq_false, if_false, if_true, if_neg hmem',
        ihw', hprev', Bool.false_eq_true]
      exact removeA_storeA_absent g _ hprev'
  · -- deepHash: not addressable
    intro src canAddr addr field g hv hca d ihw
    have hv' : isValidV src = true := by revert hv; cases isValidV src <;> simp
    have hca' : canAddr = false := by revert hca; cases canAddr <;> simp
    subst hca'
    have ihw' : (walk (derefV src false addr).1 (derefV src false addr).2.1
        (derefV src false addr).2.2 field g).2.1 = g := ihw
    simp only [deepHash, hv', Bool.true_eq_false, if_false, Bool.false_eq_true]
    exact ihw'
  · -- walk: struct
    intro ca ad field g fs ih
    simpa [walk] using ih
  · -- walk: map
    intro ca ad field g entries kr sorted ih5 ih4
    have ih4' : (walkEntries (((keyHashList entries g).1.zip entries).mergeSort mapLe)
        field (keyHashList entries g).2.1).2.1 = (keyHashList entries g).2.1 := ih4
    simp only [walk]
    rw [ih4', ih5]
  · -- walk: slice
    intro ca ad field g base es ih
    simpa [walk] using ih
  · -- walk: array
    intro ca ad field g es ih
    simpa [walk] using ih
  · -- walk: string
    intro ca ad field g s
    simp [walk]
  · -- walk: bool
    intro ca ad field g b
    simp [walk]
  · -- walk: int
    intro ca ad field g w x
    simp [walk]
  · -- walk: uint
    intro ca ad field g w x
    simp [walk]
  · -- walk: float
    intro ca ad field g w bits
    simp [walk]
  · -- walk: remaining kinds contribute nothing
    intro v ca ad field g h1 h2 h3 h4 h5 h6 h7 h8 h9
    cases v with
    | structV fs => exact absurd rfl (h1 fs)
    | mapV entries => exact absurd rfl (h2 entries)
    | sliceV base es => exact absurd rfl (h3 base es)
    | arrayV es => exact absurd rfl (h4 es)
    | str s => exact absurd rfl (h5 s)
    | boolean b => exact absurd rfl (h6 b)
    | intV w x => exact absurd rfl (h7 w x)
    | uintV w x => exact absurd rfl (h8 w x)
    | floatV w bits => exact absurd rfl (h9 w bits)
    | invalid => simp [walk]
    | ptrV tgt => simp [walk]
    | ifaceV tgt => simp [walk]
  · -- walkElems: nil
    intro i ca ad field g
    simp [walkElems]
  · -- walkElems: cons
    intro i ca ad field g e rest r ihd ihr
    have ihd' : (deepHash e ca (ad ++ [i]) (appendName field (toString i) .indexedT) g).2.1
        = g := ihd
    have ihr' : (walkElems rest (i + 1) ca ad field
        (deepHash e ca (ad ++ [i]) (appendName field (toString i) .indexedT) g).2.1).2.1
        = (deepHash e ca (ad ++ [i]) (appendName field (toString i) .indexedT) g).2.1 := ihr
    simp only [walkElems]
    rw [ihr', ihd']
  · -- walkEntries: nil
    intro field g
    simp [walkEntries]
  · -- walkEntries: cons
    intro field g kh k v rest r ihd ihr
    have ihd' : (deepHash v false [] (appendName field (valueString k) .indexedT) g).2.1
        = g := ihd
    have ihr' : (walkEntries rest field
        (deepHash v false [] (appendName field (valueString k) .indexedT) g).2.1).2.1
        = (deepHash v false [] (appendName field (valueString k) .indexedT) g).2.1 := ihr
    simp only [walkEntries]
    rw [ihr', ihd']
  · -- keyHashList: nil
    intro g
    simp [keyHashList]
  · -- keyHashList: cons
    intro g k snd rest r ihd ihr
    have ihd' : (deepHash k false [] "" g).2.1 = g := ihd
    have ihr' : (keyHashList rest (deepHash k false [] "" g).2.1).2.1
        = (deepHash k false [] "" g).2.1 := ihr
    simp only [keyHashList]
    rw [ihr', ihd']
  · -- walkFields: nil
    intro i ca ad field g
    simp [walkFields]
  · -- walkFields: cons
    intro i ca ad field g name fv rest nm r ihd1 ihd2 ihr
    have ihd' : (deepHash fv ca (ad ++ [i])
        (if field = "" then "" else appendName field name .defaultT) g).2.1 = g := ihd1
    have ihr' : (walkFields rest (i + 1) ca ad field
        (deepHash fv ca (ad ++ [i])
          (if field = "" then "" else appendName field name .defaultT) g).2.1).2.1
        = (deepHash fv ca (ad ++ [i])
            (if field = "" then "" else appendName field name .defaultT) g).2.1 := ihr
    simp only [walkFields]
    rw [ihr', ihd']

/-- A `deepHash` call restores `visited` exactly. -/
theorem deepHash_restore (src : GoValue) (ca : Bool) (ad : Addr) (f : String) (g : Guard) :
    (deepHash src ca ad f g).2.1 = g := restore_all.1 src ca ad f g

theorem keyHashList_restore (entries : List (GoValue × GoValue)) (g : Guard) :
    (keyHashList entries g).2.1 = g := restore_all.2.2.2.2.1 entries g

/-- The two shapes of the deferred pop: when the identity was already
present on entry, removing the last appended type restores the map; when
it was fresh, deleting the identity restores the map. -/
theorem guard_pop_prevSeen (g : Guard) (a : Addr) (t : TypeTag)
    (h : containsA g a = true) :
    storeA (storeA g a (lookupGD g a ++ [t])) a
      ((lookupGD (storeA g a (lookupGD g a ++ [t])) a).dropLast) = g := by
  rw [lookupGD_storeA_self, List.dropLast_concat, storeA_storeA]
  have hl : lookupA g a = some (lookupGD g a) := by
    simp only [containsA] at h
    simp only [lookupGD]
    cases hh : lookupA g a with
    | none => rw [hh] at h; simp at h
    | some x => simp
  exact storeA_lookupA_self g hl

theorem guard_pop_fresh (g : Guard) (a : Addr) (t : TypeTag)
    (h : containsA g a = false) :
    removeA (storeA g a (lookupGD g a ++ [t])) a = g :=
  removeA_storeA_absent g _ h

/-! ## Claim C3: cycle guard discipline -/

/-- C3: the cycle guard keeps, per identity, a list of active types with
LIFO discipline.  Entering a valid addressable node whose exact
(identity, type) pair is already active skips the subtree: it contributes
no writes, leaves the guard untouched, and is not an error.  Otherwise the
pair is recorded (it is in the guard while the recursive call runs) and on
return the guard is restored exactly: when the identity was already
present on entry only the last-appended type is removed
(`visited[h] = prev[0:len(prev)-1]`), and when this was the identity's
first occurrence the identity's entry is removed entirely
(`delete(visited, h)`). -/
theorem c3_cycle_guard_discipline (g : Guard) (a : Addr) (src : GoValue) (f : String)
    (hvalid : isValidV src = true) :
    (typeTag src ∈ lookupGD g a → deepHash src true a f g = ([], g, true)) ∧
    (typeTag src ∉ lookupGD g a →
      lookupGD (storeA g a (lookupGD g a ++ [typeTag src])) a
        = lookupGD g a ++ [typeTag src] ∧
      (deepHash src true a f g).2.1 = g) ∧
    (containsA g a = true →
      storeA (storeA g a (lookupGD g a ++ [typeTag src])) a
        ((lookupGD (storeA g a (lookupGD g a ++ [typeTag src])) a).dropLast) = g) ∧
    (containsA g a = false →
      removeA (storeA g a (lookupGD g a ++ [typeTag src])) a = g) := by
  refine ⟨?_, ?_, ?_, ?_⟩
  · intro hmem
    simp [deepHash, hvalid, hmem]
  · intro _
    exact ⟨lookupGD_storeA_self g a _, deepHash_restore src true a f g⟩
  · exact guard_pop_prevSeen g a (typeTag src)
  · exact guard_pop_fresh g a (typeTag src)

/-- Witness for C3 at concrete inputs: a skip with the pair present, exact
restoration with it absent, and the fresh-identity pop. -/
theorem c3_cycle_guard_discipline_witness :
    deepHash (.boolean true) true [5] "" [([5], [TypeTag.boolT])]
      = ([], [([5], [TypeTag.boolT])], true) ∧
    (deepHash (.boolean true) true [5] "" [([5], [TypeTag.strT])]).2.1
      = [([5], [TypeTag.strT])] ∧
    removeA (storeA ([] : Guard) [5] (lookupGD [] [5] ++ [TypeTag.boolT])) [5] = [] := by
  refine ⟨?_, ?_, ?_⟩
  · exact (c3_cycle_guard_discipline [([5], [.boolT])] [5] (.boolean true) "" rfl).1
      (by decide)
  · exact ((c3_cycle_guard_discipline [([5], [.strT])] [5] (.boolean true) "" rfl).2.1
      (by decide)).2
  · exact (c3_cycle_guard_discipline [] [5] (.boolean true) "" rfl).2.2.2 (by decide)

/-! ## Claim C1: primitive encodings -/

/-- C1 as stated is false: the code encodes every signed integer via
`src.Int()` (an `int64`), so an `int32` 43 and an `int64` 43 produce the
same 8-byte fragment and hash equal, and an `int8` fragment has 8 bytes,
not 1. -/
theorem c1_width_counterexample :
    Hash (.intV .i32 43) = Hash (.intV .i64 43) ∧
    (deepHash (.intV .i8 43) false [] "" []).1 = [("", be8 43)] ∧
    be8 43 = [0, 0, 0, 0, 0, 0, 0, 43] := by
  refine ⟨?_, ?_, by decide⟩
  · simp [Hash, deepHash, walk, derefV, isValidV]
  · simp [deepHash, walk, derefV, isValidV, intToU64]

/-- C1 amended: every signed integer is widened to its 64-bit two's
complement image and emitted as 8 big-endian bytes, every unsigned
integer as the 8 big-endian bytes of its value mod 2^64, and every float
as the 8 big-endian bytes of the (widened) float64 bit pattern; the
declared width never affects the fragment, so values of differing widths
holding the same numeric value hash equal. -/
theorem c1_widened_encoding :
    (∀ (w₁ w₂ : IntW) (v : Int), Hash (.intV w₁ v) = Hash (.intV w₂ v)) ∧
    (∀ (w₁ w₂ : UintW) (v : Nat), Hash (.uintV w₁ v) = Hash (.uintV w₂ v)) ∧
    (∀ (w : IntW) (v : Int) (f : String) (g : Guard),
      (deepHash (.intV w v) false [] f g).1 = [(f, be8 (intToU64 v))]) ∧
    (∀ (w : UintW) (v : Nat) (f : String) (g : Guard),
      (deepHash (.uintV w v) false [] f g).1 = [(f, be8 (v % two64))]) ∧
    (∀ (w : FloatW) (bits : Nat) (f : String) (g : Guard),
      (deepHash (.floatV w bits) false [] f g).1 = [(f, be8 (bits % two64))]) ∧
    (∀ n : Nat, (be8 n).length = 8) := by
  refine ⟨?_, ?_, ?_, ?_, ?_, ?_⟩
  · intro w₁ w₂ v
    simp [Hash, deepHash, walk, derefV, isValidV]
  · intro w₁ w₂ v
    simp [Hash, deepHash, walk, derefV, isValidV]
  · intro w v f g
    simp [deepHash, walk, derefV, isValidV]
  · intro w v f g
    simp [deepHash, walk, derefV, isValidV]
  · intro w bits f g
    simp [deepHash, walk, derefV, isValidV]
  · intro n
    simp [be8]

/-! ## Claim C4: the Diff examples -/

/-- C4: the three Diff examples of the spec.  The string example and the
slice example produce exactly the listed outputs; the map example
produces exactly the four listed labels (as a set — output order of a
Go map iteration is unspecified, so it is stated up to permutation). -/
theorem c4_diff_examples :
    Diff "xyz" (.str "1") (.str "2") = ["xyz is not equal"] ∧
    (Diff "xyz" (.mapV [(.str "key1", .intV .i 42)])
        (.mapV [(.str "key2", .intV .i 42)])).Perm
      ["xyz[key1] is not equal", "xyz[key1-key] is not equal",
       "xyz[key2] is not equal", "xyz[key2-key] is not equal"] ∧
    Diff "xyz" (.sliceV 1 [.intV .i 1, .intV .i 2, .intV .i 3, .intV .i 4])
        (.sliceV 2 [.intV .i 1, .intV .i 5, .intV .i 3, .intV .i 6])
      = ["xyz[1] is not equal", "xyz[3] is not equal"] := by
  refine ⟨?_, ?_, ?_⟩
  · simp [Diff, deepHash, walk, derefV, isValidV, cwWriteAll, cwWrite, storeA, removeA,
      lookupA, strBytes, notEq]
  · have h : Diff "xyz" (.mapV [(.str "key1", .intV .i 42)])
        (.mapV [(.str "key2", .intV .i 42)])
        = ["xyz[key2-key] is not equal", "xyz[key2] is not equal",
           "xyz[key1-key] is not equal", "xyz[key1] is not equal"] := by
      simp [Diff, deepHash, walk, walkEntries, keyHashList, derefV, isValidV, cwWriteAll,
        cwWrite, storeA, removeA, lookupA, containsA, lookupGD, strBytes, notEq,
        bytesOfWrites, fnv64, fnvStep, fnvBasis, fnvPrime, two64, be8, intToU64,
        appendName, valueString, typeName, mapLe, typeTag]
    rw [h]
    decide
  · simp [Diff, deepHash, walk, walkElems, derefV, isValidV, cwWriteAll, cwWrite, storeA,
      removeA, lookupA, containsA, lookupGD, strBytes, notEq, bytesOfWrites, fnv64,
      fnvStep, fnvBasis, fnvPrime, two64, be8, intToU64, appendName, valueString,
      typeName, typeTag,
      show toString (0 : Nat) = "0" from rfl, show toString (1 : Nat) = "1" from rfl,
      show toString (2 : Nat) = "2" from rfl, show toString (3 : Nat) = "3" from rfl]

/-! ## Claim C9: determinism and tied sub-hashes -/

/-- C9's failing input: two distinct keys (`int64 1` and `uint64 1`) whose
sub-hashes tie.  The hash of the map then depends on the (unspecified,
randomised in Go) iteration order of the two entries: the code sorts with
the non-stable `sort.Slice` on a slice populated in iteration order, so
repeated calls on the same map may produce different digests.  The model
fixes iteration order as the entry-list order; the two orders of the same
entry set produce different digests. -/
theorem c9_tied_subhash_order_dependent :
    keyHash (.intV .i64 1) = keyHash (.uintV .u64 1) ∧
    GoValue.intV .i64 1 ≠ GoValue.uintV .u64 1 ∧
    Hash (.mapV [(.intV .i64 1, .str "X"), (.uintV .u64 1, .str "Y")])
      ≠ Hash (.mapV [(.uintV .u64 1, .str "Y"), (.intV .i64 1, .str "X")]) := by
  refine ⟨?_, by simp, ?_⟩
  · simp [keyHash, deepHash, walk, derefV, isValidV, bytesOfWrites, be8, intToU64, two64]
  · simp [Hash, deepHash, walk, walkEntries, keyHashList, derefV, isValidV, bytesOfWrites,
      strBytes, fnv64, fnvStep, fnvBasis, fnvPrime, two64, be8, intToU64, appendName,
      valueString, typeName, mapLe, typeTag, List.mergeSort, List.merge,
      List.zip_cons_cons, List.zip_nil_left, List.zip_nil_right]

/-! ## Claim C10: fragment-free inputs give the offset basis -/

/-- C10: every input whose traversal contributes no bytes — the invalid
value (`Hash(nil)`), an empty string, an empty slice, an empty map, or any
value whose write stream is empty (e.g. a record with no fragment-emitting
fields) — hashes to the fnv64a offset basis 14695981039346656037, which is
nonzero; `Hash` always returns normally. -/
theorem c10_empty_inputs_offset_basis :
    Hash .invalid = fnvBasis ∧
    Hash (.str "") = fnvBasis ∧
    (∀ base : Nat, Hash (.sliceV base []) = fnvBasis) ∧
    Hash (.mapV []) = fnvBasis ∧
    (∀ v : GoValue, bytesOfWrites (deepHash v false [] "" []).1 = [] → Hash v = fnvBasis) ∧
    fnvBasis ≠ 0 ∧
    fnvBasis = 14695981039346656037 := by
  refine ⟨?_, ?_, ?_, ?_, ?_, by decide, rfl⟩
  · simp [Hash, deepHash, walk, derefV, isValidV, bytesOfWrites, fnv64]
  · simp [Hash, deepHash, walk, derefV, isValidV, bytesOfWrites, strBytes, fnv64]
  · intro base
    simp [Hash, deepHash, walk, walkElems, derefV, isValidV, bytesOfWrites, fnv64]
  · simp [Hash, deepHash, walk, walkEntries, keyHashList, derefV, isValidV, bytesOfWrites,
      fnv64, List.mergeSort_nil, List.zip_nil_left, List.zip_nil_right]
  · intro v h
    simp only [Hash, h, fnv64, List.foldl_nil]

/-- Witness for C10's general conjunct: a record whose fields (an empty
record and a nil pointer) emit no fragments hashes to the offset basis. -/
theorem c10_empty_inputs_offset_basis_witness :
    Hash (.structV [("Nested", .structV []), ("P", .ptrV none)]) = fnvBasis := by
  apply c10_empty_inputs_offset_basis.2.2.2.2.1
  simp [deepHash, walk, walkFields, derefV, isValidV, bytesOfWrites, appendName]

/-! ## Claim C6: double writes in the recording phase -/

/-- C6 as stated is false: writing the same label twice during the
recording phase raises no error — both calls return `nil` and the second
silently overwrites the first. -/
theorem c6_double_write_no_error :
    (cwWrite ((cwWrite ⟨[], [], false⟩ "x" [1]).1) "x" [2]).2 = none ∧
    (cwWrite ((cwWrite ⟨[], [], false⟩ "x" [1]).1) "x" [2]).1.writes = [("x", [2])] ∧
    (cwWrite ⟨[], [], false⟩ "x" [1]).2 = none := by
  refine ⟨rfl, ?_, rfl⟩
  simp [cwWrite, storeA]

/-- C6 amended: a label written twice within the recording phase is
silently accepted — both writes return `nil` and the recorded bytes for
the label are those of the last write. -/
theorem c6_double_write_overwrites (st : CompareW) (f : String) (p₁ p₂ : List Nat)
    (h : st.comparing = false) :
    (cwWrite (cwWrite st f p₁).1 f p₂).2 = none ∧
    lookupA (cwWrite (cwWrite st f p₁).1 f p₂).1.writes f = some p₂ ∧
    (cwWrite st f p₁).2 = none := by
  simp [cwWrite, h, lookupA_storeA_self, storeA_storeA]

/-- Witness for C6's amended claim at a concrete state. -/
theorem c6_double_write_overwrites_witness :
    (cwWrite (cwWrite ⟨[("y", [9])], [], false⟩ "z" [1]).1 "z" [2]).2 = none ∧
    lookupA (cwWrite (cwWrite ⟨[("y", [9])], [], false⟩ "z" [1]).1 "z" [2]).1.writes "z"
      = some [2] ∧
    (cwWrite ⟨[("y", [9])], [], false⟩ "z" [1]).2 = none :=
  c6_double_write_overwrites ⟨[("y", [9])], [], false⟩ "z" [1] [2] rfl

/-! ## Claim C7: path label uniqueness -/

/-- C7 as stated is false: two distinct map keys of a non-string kind
share one display form (`reflect.Value.String()` gives `"<int Value>"`
for every `int`), so their labels coincide, and one traversal of such a
map emits duplicate labels. -/
theorem c7_label_collision_counterexample :
    appendName "xyz" (valueString (.intV .i 1)) .indexedT
      = appendName "xyz" (valueString (.intV .i 2)) .indexedT ∧
    GoValue.intV .i 1 ≠ GoValue.intV .i 2 ∧
    ¬ (labelsW (deepHash (.mapV [(.intV .i 1, .str "a"), (.intV .i 2, .str "b")])
        false [] "xyz" []).1).Nodup := by
  refine ⟨rfl, by simp, ?_⟩
  have h : labelsW (deepHash (.mapV [(.intV .i 1, .str "a"), (.intV .i 2, .str "b")])
      false [] "xyz" []).1
      = ["xyz[<int Value>-key]", "xyz[<int Value>]",
         "xyz[<int Value>-key]", "xyz[<int Value>]"] := by
    simp [labelsW, deepHash, walk, walkEntries, keyHashList, derefV, isValidV,
      bytesOfWrites, strBytes, fnv64, fnvStep, fnvBasis, fnvPrime, two64, be8, intToU64,
      appendName, valueString, typeName, mapLe, typeTag, List.mergeSort, List.merge,
      List.zip_cons_cons, List.zip_nil_left, List.zip_nil_right]
  rw [h]
  decide

/-- C7 amended: `appendName` is injective in the component for each fixed
kind — distinct field names, distinct indices, or distinct display
strings under the same non-empty base always yield distinct labels (for
map keys the display form must differ, which holds for distinct string
keys but not for distinct non-string keys). -/
theorem c7_appendName_injective (base f₁ f₂ : String) (nt : NamedType)
    (hbase : base ≠ "") (hne : f₁ ≠ f₂) :
    appendName base f₁ nt ≠ appendName base f₂ nt := by
  intro h
  apply hne
  cases nt with
  | defaultT =>
    simp only [appendName, if_neg hbase] at h
    have hd := congrArg String.data h
    simp only [String.data_append, List.append_assoc] at hd
    exact String.ext (List.append_cancel_left (List.append_cancel_left hd))
  | mapKeyT =>
    simp only [appendName, if_neg hbase] at h
    have hd := congrArg String.data h
    simp only [String.data_append, List.append_assoc] at hd
    have h1 := List.append_cancel_left (List.append_cancel_left hd)
    exact String.ext (List.append_cancel_right h1)
  | indexedT =>
    simp only [appendName, if_neg hbase] at h
    have hd := congrArg String.data h
    simp only [String.data_append, List.append_assoc] at hd
    have h1 := List.append_cancel_left (List.append_cancel_left hd)
    exact String.ext (List.append_cancel_right h1)

/-- Witness for C7's amended claim at concrete labels. -/
theorem c7_appendName_injective_witness :
    appendName "xyz" "a" .indexedT ≠ appendName "xyz" "b" .indexedT :=
  c7_appendName_injective "xyz" "a" "b" .indexedT (by decide) (by decide)

/-! ## Claim C2: map order independence -/

/-- The key-sub-hash loop computes, in iteration order, the sub-hash of
each key against the entry guard state (which each call restores). -/
theorem keyHashList_fst (entries : List (GoValue × GoValue)) (g : Guard) :
    (keyHashList entries g).1
      = entries.map (fun p => fnv64 (bytesOfWrites (deepHash p.1 false [] "" g).1)) := by
  induction entries with
  | nil => simp [keyHashList]
  | cons e rest ih =>
    obtain ⟨k, v⟩ := e
    simp only [keyHashList, deepHash_restore, List.map_cons]
    rw [ih]

theorem mapLe_trans : ∀ a b c : Nat × GoValue × GoValue,
    mapLe a b = true → mapLe b c = true → mapLe a c = true := by
  intro a b c hab hbc
  simp only [mapLe, decide_eq_true_eq] at hab hbc ⊢
  omega

theorem mapLe_total : ∀ a b : Nat × GoValue × GoValue,
    (mapLe a b || mapLe b a) = true := by
  intro a b
  simp only [mapLe, Bool.or_eq_true, decide_eq_true_eq]
  omega

/-- Two permutations of one element list with pairwise-distinct sub-hashes
have the same `mergeSort` image: the strictly sorted arrangement is
unique. -/
theorem mergeSort_eq_of_perm_nodup {l₁ l₂ : List (Nat × GoValue × GoValue)}
    (hp : l₁.Perm l₂) (hnd : (l₁.map (fun t => t.1)).Nodup) :
    l₁.mergeSort mapLe = l₂.mergeSort mapLe := by
  haveI : IsAntisymm (Nat × GoValue × GoValue) (fun a b => a.1 < b.1) :=
    ⟨fun a b h1 h2 => absurd (Nat.lt_trans h1 h2) (Nat.lt_irrefl _)⟩
  have hperm : (l₁.mergeSort mapLe).Perm (l₂.mergeSort mapLe) :=
    ((List.mergeSort_perm l₁ mapLe).trans hp).trans (List.mergeSort_perm l₂ mapLe).symm
  have hsorted : ∀ (l : List (Nat × GoValue × GoValue)),
      ((l.map (fun t => t.1)).Nodup) →
      List.Sorted (fun a b => a.1 < b.1) (l.mergeSort mapLe) := by
    intro l hl
    have h1 : (l.mergeSort mapLe).Pairwise (fun a b => mapLe a b = true) :=
      List.sorted_mergeSort mapLe_trans mapLe_total l
    have h2 : ((l.mergeSort mapLe).map (fun t => t.1)).Nodup :=
      (List.Perm.nodup_iff ((List.mergeSort_perm l mapLe).map _)).mpr hl
    have h3 : (l.mergeSort mapLe).Pairwise (fun a b => ¬(a.1 = b.1)) := by
      rw [List.Nodup, List.pairwise_map] at h2
      exact h2
    have h4 := List.Pairwise.and h1 h3
    refine h4.imp ?_
    intro a b hab
    obtain ⟨hle, hne⟩ := hab
    simp only [mapLe, decide_eq_true_eq] at hle
    omega
  have hnd₂ : (l₂.map (fun t => t.1)).Nodup := (List.Perm.nodup_iff (hp.map _)).mp hnd
  exact List.eq_of_perm_of_sorted hperm (hsorted l₁ hnd) (hsorted l₂ hnd₂)

/-- Zipping the mapped sub-hashes back onto the entries pairs each entry
with its own sub-hash. -/
theorem zip_map_self {α β : Type} (f : α → β) (l : List α) :
    (l.map f).zip l = l.map (fun x => (f x, x)) := by
  induction l with
  | nil => simp
  | cons x rest ih => simp [List.zip_cons_cons, ih]

/-- A valid, non-addressable value is dereferenced and dispatched without
guard bookkeeping. -/
theorem deepHash_not_addr (src : GoValue) (ad : Addr) (f : String) (g : Guard)
    (h : isValidV src = true) :
    deepHash src false ad f g
      = walk (derefV src false ad).1 (derefV src false ad).2.1 (derefV src false ad).2.2
          f g := by
  unfold deepHash
  simp [h]

/-- `Hash` of a map value reduces to the entries walk over the sub-hash
sorted element list. -/
theorem Hash_mapV (e : List (GoValue × GoValue)) :
    Hash (.mapV e)
      = fnv64 (bytesOfWrites
          (walkEntries ((e.map (fun p => (keyHash p.1, p))).mergeSort mapLe) "" []).1) := by
  simp only [Hash]
  rw [deepHash_not_addr (.mapV e) [] "" [] rfl]
  have hd : derefV (GoValue.mapV e) false [] = (.mapV e, false, []) := rfl
  rw [hd]
  simp only [walk, keyHashList_restore, keyHashList_fst]
  rw [zip_map_self]
  rfl

/-- C2: for every map whose keys have pairwise-distinct sub-hashes, `Hash`
is independent of the iteration/insertion order: the engine sub-hashes
each key via a private fnv64a sink, sorts the (key, entry) pairs by
sub-hash ascending, and visits them in that order, so any two orderings of
the same entry set hash equal. -/
theorem c2_map_order_independence (e₁ e₂ : List (GoValue × GoValue))
    (hperm : e₁.Perm e₂)
    (hnd : (e₁.map (fun p => keyHash p.1)).Nodup) :
    Hash (.mapV e₁) = Hash (.mapV e₂) := by
  rw [Hash_mapV, Hash_mapV]
  have hp : (e₁.map (fun p => (keyHash p.1, p))).Perm (e₂.map (fun p => (keyHash p.1, p))) :=
    hperm.map _
  have hnd' : ((e₁.map (fun p => (keyHash p.1, p))).map (fun t => t.1)).Nodup := by
    rw [List.map_map]
    exact hnd
  rw [mergeSort_eq_of_perm_nodup hp hnd']

/-! ## Claim C5: Diff symmetry -/

/-- Recording phase: `cwWriteAll` with `comparing = false` folds the
writes into the store and touches nothing else. -/
theorem cwWriteAll_record (ws : Writes) (st : CompareW) (h : st.comparing = false) :
    cwWriteAll st ws
      = ⟨ws.foldl (fun m p => storeA m p.1 p.2) st.writes, st.diffs, false⟩ := by
  induction ws generalizing st with
  | nil =>
    obtain ⟨w, d, c⟩ := st
    simp only at h
    subst h
    rfl
  | cons p rest ih =>
    simp only [cwWriteAll, List.foldl_cons] at ih ⊢
    rw [show (cwWrite st p.1 p.2).1 = { st with writes := storeA st.writes p.1 p.2 } from by
      simp [cwWrite, h]]
    exact ih _ h

/-- Folding stores of fresh, pairwise-distinct labels appends them in
order. -/
theorem foldl_storeA_fresh (ws : Writes) (acc : List (String × List Nat))
    (hdisj : ∀ l ∈ labelsW ws, containsA acc l = false)
    (hnd : (labelsW ws).Nodup) :
    ws.foldl (fun m p => storeA m p.1 p.2) acc = acc ++ ws := by
  induction ws generalizing acc with
  | nil => simp
  | cons p rest ih =>
    obtain ⟨f, b⟩ := p
    simp only [labelsW, List.map_cons, List.nodup_cons] at hnd
    simp only [List.foldl_cons]
    rw [storeA_absent acc b (hdisj f (by simp [labelsW]))]
    rw [ih (acc ++ [(f, b)]) ?_ hnd.2]
    · simp
    · intro l hl
      apply containsA_append_false (hdisj l (by simp [labelsW] at hl ⊢; exact Or.inr hl))
      have hlf : ¬(l = f) := by
        intro hh
        subst hh
        exact hnd.1 (by simpa [labelsW] using hl)
      have hfl : ¬(f = l) := fun hh => hlf hh.symm
      simp [containsA, lookupA, hfl]

/-- The mismatch test of the comparing phase, as a single decidable
condition. -/
theorem cwWrite_mismatch (m : List (String × List Nat)) (f : String) (p : List Nat) :
    (match lookupA m f with
      | none => true
      | some prevP => decide (¬(p = prevP)))
      = decide (¬(lookupA m f = some p)) := by
  cases h : lookupA m f with
  | none => simp
  | some prev =>
    by_cases he : p = prev
    · subst he
      simp
    · have he' : ¬(prev = p) := fun hh => he hh.symm
      simp [he, he']

/-- Comparing phase over pairwise-distinct labels: the processed labels
are consumed from the store, and a difference is appended for exactly the
incoming writes whose recorded bytes are absent or unequal. -/
theorem cwWriteAll_compare (ws : Writes) (st : CompareW) (hc : st.comparing = true)
    (hnd : (labelsW ws).Nodup) :
    cwWriteAll st ws
      = ⟨st.writes.filter (fun q => decide ¬(q.1 ∈ labelsW ws)),
         st.diffs ++ (ws.filter (fun p => decide ¬(lookupA st.writes p.1 = some p.2))).map
           (fun p => (if p.1 = "" then "value" else p.1) ++ notEq),
         true⟩ := by
  induction ws generalizing st with
  | nil =>
    obtain ⟨w, d, c⟩ := st
    simp only at hc
    subst hc
    simp [cwWriteAll, labelsW, List.filter_eq_self]
  | cons p rest ih =>
    obtain ⟨f, b⟩ := p
    simp only [labelsW, List.map_cons, List.nodup_cons] at hnd
    simp only [cwWriteAll, List.foldl_cons] at ih ⊢
    have hstep : (cwWrite st f b).1
        = ⟨removeA st.writes f,
           st.diffs ++ (if decide ¬(lookupA st.writes f = some b) = true
             then [(if f = "" then "value" else f) ++ notEq] else []),
           true⟩ := by
      simp only [cwWrite, hc, Bool.true_eq_false, if_false]
      rw [show (match lookupA st.writes f with
          | none => true
          | some prevP => decide (¬(b = prevP))) = decide (¬(lookupA st.writes f = some b))
        from cwWrite_mismatch st.writes f b]
      by_cases hm : lookupA st.writes f = some b
      · simp [hm]
      · simp [hm]
    rw [hstep]
    rw [ih _ rfl (by simpa [labelsW] using hnd.2)]
    have hwr : (removeA st.writes f).filter (fun q => decide ¬(q.1 ∈ labelsW rest))
        = st.writes.filter (fun q => decide ¬(q.1 ∈ f :: labelsW rest)) := by
      simp only [removeA, List.filter_filter]
      apply List.filter_congr
      intro q _
      simp only [List.mem_cons, decide_not]
      cases hq : decide (q.1 = f) <;> cases hq2 : decide (q.1 ∈ labelsW rest) <;>
        simp_all
    have hdf : rest.filter (fun p => decide ¬(lookupA (removeA st.writes f) p.1 = some p.2))
        = rest.filter (fun p => decide ¬(lookupA st.writes p.1 = some p.2)) := by
      apply List.filter_congr
      intro q hq
      have hqf : ¬(q.1 = f) := by
        intro hh
        apply hnd.1
        rw [← hh]
        exact List.mem_map.mpr ⟨q, hq, rfl⟩
      rw [lookupA_removeA_other hqf]
    rw [hwr, hdf]
    simp only [labelsW, List.filter_cons]
    congr 1
    by_cases hm : lookupA st.writes f = some b
    · simp [hm]
    · simp [hm]

/-- The output of `Diff`, for traversals whose write sequences have
pairwise-distinct labels: one difference per right-side write whose
recorded left fragment is absent or unequal, then one per left-side label
never produced on the right. -/
theorem Diff_eq_filters (f₀ : String) (l r : GoValue)
    (hnd₁ : (labelsW (deepHash l false [] (if f₀ = "" then "value" else f₀) []).1).Nodup)
    (hnd₂ : (labelsW (deepHash r false [] (if f₀ = "" then "value" else f₀) []).1).Nodup) :
    Diff f₀ l r
      = ((deepHash r false [] (if f₀ = "" then "value" else f₀) []).1.filter
          (fun p => decide ¬(lookupA
            (deepHash l false [] (if f₀ = "" then "value" else f₀) []).1 p.1 = some p.2))).map
          (fun p => (if p.1 = "" then "value" else p.1) ++ notEq)
        ++ ((deepHash l false [] (if f₀ = "" then "value" else f₀) []).1.filter
            (fun q => decide ¬(q.1 ∈ labelsW
              (deepHash r false [] (if f₀ = "" then "value" else f₀) []).1))).map
            (fun q => q.1 ++ notEq) := by
  have h1 : cwWriteAll ⟨[], [], false⟩
      (deepHash l false [] (if f₀ = "" then "value" else f₀) []).1
      = ⟨(deepHash l false [] (if f₀ = "" then "value" else f₀) []).1, [], false⟩ := by
    rw [cwWriteAll_record _ _ rfl]
    rw [foldl_storeA_fresh _ [] (fun _ _ => rfl) hnd₁]
    rfl
  simp only [Diff]
  rw [h1]
  rw [cwWriteAll_compare _ _ rfl hnd₂]
  rfl

/-- Witness for C2 at a concrete two-entry map built in both orders. -/
theorem c2_map_order_independence_witness :
    Hash (.mapV [(.str "a", .intV .i 1), (.str "b", .intV .i 2)])
      = Hash (.mapV [(.str "b", .intV .i 2), (.str "a", .intV .i 1)]) := by
  apply c2_map_order_independence
  · exact List.Perm.swap _ _ _
  · have h : ([((GoValue.str "a"), GoValue.intV .i 1),
        (.str "b", .intV .i 2)]).map (fun p => keyHash p.1)
        = [keyHash (.str "a"), keyHash (.str "b")] := rfl
    rw [h]
    have ha : keyHash (.str "a") ≠ keyHash (.str "b") := by
      simp [keyHash, deepHash, walk, derefV, isValidV, bytesOfWrites, strBytes, fnv64,
        fnvStep, fnvBasis, fnvPrime, two64]
    simp [List.nodup_cons, ha]

/-- For traversals with pairwise-distinct non-empty labels, a string is
reported by `Diff` exactly when it is `lab ++ " is not equal"` for a label
whose recorded fragments differ between the two sides (absent counts as
different). -/
theorem mem_Diff_iff (f₀ : String) (l r : GoValue)
    (hnd₁ : (labelsW (deepHash l false [] (if f₀ = "" then "value" else f₀) []).1).Nodup)
    (hnd₂ : (labelsW (deepHash r false [] (if f₀ = "" then "value" else f₀) []).1).Nodup)
    (hne₂ : "" ∉ labelsW (deepHash r false [] (if f₀ = "" then "value" else f₀) []).1)
    (s : String) :
    s ∈ Diff f₀ l r
      ↔ ∃ lab, s = lab ++ notEq ∧
          ¬(lookupA (deepHash l false [] (if f₀ = "" then "value" else f₀) []).1 lab
            = lookupA (deepHash r false [] (if f₀ = "" then "value" else f₀) []).1 lab) := by
  rw [Diff_eq_filters f₀ l r hnd₁ hnd₂]
  generalize hA : (deepHash l false [] (if f₀ = "" then "value" else f₀) []).1 = A at *
  generalize hB : (deepHash r false [] (if f₀ = "" then "value" else f₀) []).1 = B at *
  rw [List.mem_append]
  constructor
  · intro h
    rcases h with h | h
    · obtain ⟨p, hp, hs⟩ := List.mem_map.mp h
      obtain ⟨hpB, hmiss⟩ := List.mem_filter.mp hp
      simp only [decide_eq_true_eq] at hmiss
      have hlab : p.1 ∈ labelsW B := List.mem_map.mpr ⟨p, hpB, rfl⟩
      have hlabne : ¬(p.1 = "") := fun hh => hne₂ (hh ▸ hlab)
      refine ⟨p.1, ?_, ?_⟩
      · rw [← hs, if_neg hlabne]
      · have hB2 : lookupA B p.1 = some p.2 := by
          apply mem_lookupA_nodup hnd₂
          have hpp : p = (p.1, p.2) := rfl
          rw [← hpp]
          exact hpB
        rw [hB2]
        exact hmiss
    · obtain ⟨q, hq, hs⟩ := List.mem_map.mp h
      obtain ⟨hqA, hnotB⟩ := List.mem_filter.mp hq
      simp only [decide_eq_true_eq] at hnotB
      refine ⟨q.1, hs.symm, ?_⟩
      have hBnone : lookupA B q.1 = none := lookupA_none_iff.mpr hnotB
      have hAsome : lookupA A q.1 = some q.2 := by
        apply mem_lookupA_nodup hnd₁
        have hqq : q = (q.1, q.2) := rfl
        rw [← hqq]
        exact hqA
      rw [hBnone, hAsome]
      simp
  · intro h
    obtain ⟨lab, hs, hdiff⟩ := h
    cases hB2 : lookupA B lab with
    | some b₂ =>
      left
      apply List.mem_map.mpr
      refine ⟨(lab, b₂), List.mem_filter.mpr ⟨lookupA_mem hB2, ?_⟩, ?_⟩
      · simp only [decide_eq_true_eq]
        intro hh
        apply hdiff
        rw [hB2, hh]
      · have hlab : lab ∈ labelsW B := List.mem_map.mpr ⟨(lab, b₂), lookupA_mem hB2, rfl⟩
        have hlabne : ¬(lab = "") := fun hh => hne₂ (hh ▸ hlab)
        simp only
        rw [if_neg hlabne]
        exact hs.symm
    | none =>
      right
      apply List.mem_map.mpr
      cases hA2 : lookupA A lab with
      | none => exact absurd (hA2.trans hB2.symm) hdiff
      | some b₁ =>
        refine ⟨(lab, b₁), List.mem_filter.mpr ⟨lookupA_mem hA2, ?_⟩, hs.symm⟩
        simp only [decide_eq_true_eq]
        exact lookupA_none_iff.mp hB2

/-- C5 as stated is false on the code: when a traversal writes the same
label twice (non-string map keys share one display form), the recording
phase keeps only the last write per label, so `Diff(label, a, b)` and
`Diff(label, b, a)` can disagree as sets — here one direction reports two
labels and the other reports none. -/
theorem c5_diff_asymmetry_counterexample :
    ("xyz[<int Value>]" ++ notEq) ∈
      Diff "xyz" (.mapV [(.intV .i 1, .str "X")])
        (.mapV [(.intV .i 1, .str "X"), (.intV .i 2, .str "Y")]) ∧
    ("xyz[<int Value>]" ++ notEq) ∉
      Diff "xyz" (.mapV [(.intV .i 1, .str "X"), (.intV .i 2, .str "Y")])
        (.mapV [(.intV .i 1, .str "X")]) := by
  have h1 : Diff "xyz" (.mapV [(.intV .i 1, .str "X")])
      (.mapV [(.intV .i 1, .str "X"), (.intV .i 2, .str "Y")])
      = ["xyz[<int Value>-key]" ++ notEq, "xyz[<int Value>]" ++ notEq,
         "xyz[<int Value>-key]" ++ notEq, "xyz[<int Value>]" ++ notEq] := by
    simp [Diff, deepHash, walk, walkEntries, keyHashList, derefV, isValidV, cwWriteAll,
      cwWrite, storeA, removeA, lookupA, containsA, lookupGD, strBytes, notEq,
      bytesOfWrites, fnv64, fnvStep, fnvBasis, fnvPrime, two64, be8, intToU64, appendName,
      valueString, typeName, mapLe, typeTag, List.mergeSort, List.merge,
      List.zip_cons_cons, List.zip_nil_left, List.zip_nil_right]
  have h2 : Diff "xyz" (.mapV [(.intV .i 1, .str "X"), (.intV .i 2, .str "Y")])
      (.mapV [(.intV .i 1, .str "X")]) = [] := by
    simp [Diff, deepHash, walk, walkEntries, keyHashList, derefV, isValidV, cwWriteAll,
      cwWrite, storeA, removeA, lookupA, containsA, lookupGD, strBytes, notEq,
      bytesOfWrites, fnv64, fnvStep, fnvBasis, fnvPrime, two64, be8, intToU64, appendName,
      valueString, typeName, mapLe, typeTag, List.mergeSort, List.merge,
      List.zip_cons_cons, List.zip_nil_left, List.zip_nil_right]
  rw [h1, h2]
  constructor
  · simp
  · simp

/-- C5 amended: whenever each side's traversal writes pairwise-distinct
non-empty labels (as with string map keys; non-string keys can collide on
one display label), `Diff(label, a, b)` and `Diff(label, b, a)` report the
same set of difference strings: a label recorded on one side but absent on
the other, or present on both with unequal fragments, is reported by both
orders and no other string is. -/
theorem c5_diff_symmetry_nodup (f₀ : String) (l r : GoValue)
    (hnd₁ : (labelsW (deepHash l false [] (if f₀ = "" then "value" else f₀) []).1).Nodup)
    (hnd₂ : (labelsW (deepHash r false [] (if f₀ = "" then "value" else f₀) []).1).Nodup)
    (hne₁ : "" ∉ labelsW (deepHash l false [] (if f₀ = "" then "value" else f₀) []).1)
    (hne₂ : "" ∉ labelsW (deepHash r false [] (if f₀ = "" then "value" else f₀) []).1) :
    ∀ s, s ∈ Diff f₀ l r ↔ s ∈ Diff f₀ r l := by
  intro s
  rw [mem_Diff_iff f₀ l r hnd₁ hnd₂ hne₂ s, mem_Diff_iff f₀ r l hnd₂ hnd₁ hne₁ s]
  constructor
  · rintro ⟨lab, hs, hd⟩
    exact ⟨lab, hs, fun hh => hd hh.symm⟩
  · rintro ⟨lab, hs, hd⟩
    exact ⟨lab, hs, fun hh => hd hh.symm⟩

/-- Witness for C5's amended claim: the spec's string-keyed map example
has distinct non-empty labels on both sides and diffs symmetrically. -/
theorem c5_diff_symmetry_nodup_witness :
    ("xyz[key1]" ++ notEq) ∈
      Diff "xyz" (.mapV [(.str "key1", .intV .i 42)]) (.mapV [(.str "key2", .intV .i 42)])
    ↔ ("xyz[key1]" ++ notEq) ∈
      Diff "xyz" (.mapV [(.str "key2", .intV .i 42)]) (.mapV [(.str "key1", .intV .i 42)]) := by
  have hL : labelsW (deepHash (.mapV [(.str "key1", .intV .i 42)]) false []
      (if "xyz" = "" then "value" else "xyz") []).1
      = ["xyz[key1-key]", "xyz[key1]"] := by
    simp [labelsW, deepHash, walk, walkEntries, keyHashList, derefV, isValidV,
      bytesOfWrites, strBytes, fnv64, fnvStep, fnvBasis, fnvPrime, two64, be8, intToU64,
      appendName, valueString, typeName, mapLe, typeTag, List.mergeSort, List.merge,
      List.zip_cons_cons, List.zip_nil_left, List.zip_nil_right]
  have hR : labelsW (deepHash (.mapV [(.str "key2", .intV .i 42)]) false []
      (if "xyz" = "" then "value" else "xyz") []).1
      = ["xyz[key2-key]", "xyz[key2]"] := by
    simp [labelsW, deepHash, walk, walkEntries, keyHashList, derefV, isValidV,
      bytesOfWrites, strBytes, fnv64, fnvStep, fnvBasis, fnvPrime, two64, be8, intToU64,
      appendName, valueString, typeName, mapLe, typeTag, List.mergeSort, List.merge,
      List.zip_cons_cons, List.zip_nil_left, List.zip_nil_right]
  apply c5_diff_symmetry_nodup "xyz" (.mapV [(.str "key1", .intV .i 42)])
      (.mapV [(.str "key2", .intV .i 42)])
  · rw [hL]
    decide
  · rw [hR]
    decide
  · rw [hL]
    decide
  · rw [hR]
    decide

/-! ## Claim C8: indirection transparency

`plainWrites` is the traversal with the guard removed.  The bridge lemma
shows the guard is inert whenever no skip fires (the instrumentation bit
is `false`), which holds for every value representing genuine acyclic Go
data; pointer and interface wrapping then cannot change the write
sequence. -/

theorem bridge_all :
    (∀ (src : GoValue) (canAddr : Bool) (addr : Addr) (field : String) (g : Guard),
        (deepHash src canAddr addr field g).2.2 = false →
        (deepHash src canAddr addr field g).1 = plainWrites src field) ∧
    (∀ (v : GoValue) (ca : Bool) (ad : Addr) (field : String) (g : Guard),
        (walk v ca ad field g).2.2 = false →
        (walk v ca ad field g).1 = plainWalk v field) ∧
    (∀ (es : List GoValue) (i : Nat) (ca : Bool) (ad : Addr) (field : String) (g : Guard),
        (walkElems es i ca ad field g).2.2 = false →
        (walkElems es i ca ad field g).1 = plainElems es i field) ∧
    (∀ (ts : List (Nat × GoValue × GoValue)) (field : String) (g : Guard),
        (walkEntries ts field g).2.2 = false →
        (walkEntries ts field g).1 = plainEntries ts field) ∧
    (∀ (entries : List (GoValue × GoValue)) (g : Guard),
        (keyHashList entries g).2.2 = false →
        (keyHashList entries g).1 = plainKeyHashes entries) ∧
    (∀ (fs : List (String × GoValue)) (i : Nat) (ca : Bool) (ad : Addr) (field : String)
        (g : Guard),
        (walkFields fs i ca ad field g).2.2 = false →
        (walkFields fs i ca ad field g).1 = plainFields fs field) := by
  apply deepHash.mutual_induct
  · -- deepHash: invalid value
    intro src canAddr addr field g hv _
    simp [deepHash, plainWrites, hv]
  · -- deepHash: guard skip (the flag is true, hypothesis is impossible)
    intro src addr field g hv seen hmem h
    have hv' : isValidV src = true := by revert hv; cases isValidV src <;> simp
    have hmem' : typeTag src ∈ lookupGD g addr := hmem
    simp [deepHash, hv', hmem'] at h
  · -- deepHash: guard push
    intro src addr field g hv seen hmem d ihw h
    have hv' : isValidV src = true := by revert hv; cases isValidV src <;> simp
    have hmem' : typeTag src ∉ lookupGD g addr := hmem
    have hun : deepHash src true addr field g
        = ((walk (derefV src true addr).1 (derefV src true addr).2.1
            (derefV src true addr).2.2 field
            (storeA g addr (lookupGD g addr ++ [typeTag src]))).1,
           (if containsA g addr = true then
              storeA (walk (derefV src true addr).1 (derefV src true addr).2.1
                  (derefV src true addr).2.2 field
                  (storeA g addr (lookupGD g addr ++ [typeTag src]))).2.1 addr
                ((lookupGD (walk (derefV src true addr).1 (derefV src true addr).2.1
                    (derefV src true addr).2.2 field
                    (storeA g addr (lookupGD g addr ++ [typeTag src]))).2.1 addr).dropLast)
            else removeA (walk (derefV src true addr).1 (derefV src true addr).2.1
                (derefV src true addr).2.2 field
                (storeA g addr (lookupGD g addr ++ [typeTag src]))).2.1 addr),
           (walk (derefV src true addr).1 (derefV src true addr).2.1
              (derefV src true addr).2.2 field
              (storeA g addr (lookupGD g addr ++ [typeTag src]))).2.2) := by
      simp only [deepHash, hv', Bool.true_eq_false, if_false, if_true, if_neg hmem']
    rw [hun] at h ⊢
    simp only at h ⊢
    rw [ihw h]
    simp only [plainWrites, hv', Bool.true_eq_false, if_false]
    rw [derefV_fst_eq_derefPlain]
  · -- deepHash: not addressable
    intro src canAddr addr field g hv hca d ihw h
    have hv' : isValidV src = true := by revert hv; cases isValidV src <;> simp
    have hca' : canAddr = false := by revert hca; cases canAddr <;> simp
    subst hca'
    have hun : deepHash src false addr field g
        = walk (derefV src false addr).1 (derefV src false addr).2.1
            (derefV src false addr).2.2 field g := by
      simp only [deepHash, hv', Bool.true_eq_false, if_false, Bool.false_eq_true]
    rw [hun] at h ⊢
    rw [ihw h]
    simp only [plainWrites, hv', Bool.true_eq_false, if_false]
    rw [derefV_fst_eq_derefPlain]
  · -- walk: struct
    intro ca ad field g fs ih h
    simp only [walk] at h ⊢
    simp only [plainWalk]
    exact ih h
  · -- walk: map
    intro ca ad field g entries kr sorted ih5 ih4 h
    simp only [walk, Bool.or_eq_false_iff] at h
    obtain ⟨h5, h4⟩ := h
    have ih5' := ih5 h5
    have ih4' := ih4 h4
    simp only [walk, plainWalk]
    rw [ih4']
    have hs : sorted = ((plainKeyHashes entries).zip entries).mergeSort mapLe := by
      show ((keyHashList entries g).1.zip entries).mergeSort mapLe = _
      rw [ih5']
    rw [hs]
  · -- walk: slice
    intro ca ad field g base es ih h
    simp only [walk] at h ⊢
    simp only [plainWalk]
    exact ih h
  · -- walk: array
    intro ca ad field g es ih h
    simp only [walk] at h ⊢
    simp only [plainWalk]
    exact ih h
  · -- walk: string
    intro ca ad field g s _
    simp [walk, plainWalk]
  · -- walk: bool
    intro ca ad field g b _
    simp [walk, plainWalk]
  · -- walk: int
    intro ca ad field g w x _
    simp [walk, plainWalk]
  · -- walk: uint
    intro ca ad field g w x _
    simp [walk, plainWalk]
  · -- walk: float
    intro ca ad field g w bits _
    simp [walk, plainWalk]
  · -- walk: remaining kinds
    intro v ca ad field g h1 h2 h3 h4 h5 h6 h7 h8 h9 _
    cases v with
    | structV fs => exact absurd rfl (h1 fs)
    | mapV entries => exact absurd rfl (h2 entries)
    | sliceV base es => exact absurd rfl (h3 base es)
    | arrayV es => exact absurd rfl (h4 es)
    | str s => exact absurd rfl (h5 s)
    | boolean b => exact absurd rfl (h6 b)
    | intV w x => exact absurd rfl (h7 w x)
    | uintV w x => exact absurd rfl (h8 w x)
    | floatV w bits => exact absurd rfl (h9 w bits)
    | invalid => simp [walk, plainWalk]
    | ptrV tgt => simp [walk, plainWalk]
    | ifaceV tgt => simp [walk, plainWalk]
  · -- walkElems: nil
    intro i ca ad field g _
    simp [walkElems, plainElems]
  · -- walkElems: cons
    intro i ca ad field g e rest r ihd ihr h
    simp only [walkElems, Bool.or_eq_false_iff] at h ⊢
    obtain ⟨hd1, hr1⟩ := h
    simp only [plainElems]
    rw [ihd hd1, ihr hr1]
  · -- walkEntries: nil
    intro field g _
    simp [walkEntries, plainEntries]
  · -- walkEntries: cons
    intro field g kh k v rest r ihd ihr h
    simp only [walkEntries, Bool.or_eq_false_iff] at h ⊢
    obtain ⟨hd1, hr1⟩ := h
    simp only [plainEntries]
    rw [ihd hd1, ihr hr1]
  · -- keyHashList: nil
    intro g _
    simp [keyHashList, plainKeyHashes]
  · -- keyHashList: cons
    intro g k snd rest r ihd ihr h
    simp only [keyHashList, Bool.or_eq_false_iff] at h ⊢
    obtain ⟨hd1, hr1⟩ := h
    simp only [plainKeyHashes]
    rw [ihd hd1, ihr hr1]
  · -- walkFields: nil
    intro i ca ad field g _
    simp [walkFields, plainFields]
  · -- walkFields: cons
    intro i ca ad field g name fv rest nm r ihd1 ihd2 ihr h
    simp only [walkFields, Bool.or_eq_false_iff] at h ⊢
    obtain ⟨hd1, hr1⟩ := h
    simp only [plainFields]
    have ihd1' : (deepHash fv ca (ad ++ [i])
        (if field = "" then "" else appendName field name .defaultT) g).2.2 = false →
        (deepHash fv ca (ad ++ [i])
          (if field = "" then "" else appendName field name .defaultT) g).1
        = plainWrites fv (if field = "" then "" else appendName field name .defaultT) := ihd1
    have ihr' : (walkFields rest (i + 1) ca ad field
        (deepHash fv ca (ad ++ [i])
          (if field = "" then "" else appendName field name .defaultT) g).2.1).2.2 = false →
        (walkFields rest (i + 1) ca ad field
          (deepHash fv ca (ad ++ [i])
            (if field = "" then "" else appendName field name .defaultT) g).2.1).1
        = plainFields rest field := ihr
    rw [ihd1' hd1, ihr' hr1]

theorem plainWrites_ptr (a : Nat) (v : GoValue) (f : String) :
    plainWrites (.ptrV (some (a, v))) f = plainWrites v f := by
  by_cases hv : isValidV v = true
  · have hL : isValidV (GoValue.ptrV (some (a, v))) = true := rfl
    simp only [plainWrites, hv, hL, Bool.true_eq_false, if_false]
    rfl
  · have hv' : v = .invalid := by cases v <;> simp [isValidV] at hv ⊢
    subst hv'
    simp [plainWrites, plainWalk, derefPlain, isValidV]

theorem plainWrites_iface (v : GoValue) (f : String) :
    plainWrites (.ifaceV (some v)) f = plainWrites v f := by
  by_cases hv : isValidV v = true
  · have hL : isValidV (GoValue.ifaceV (some v)) = true := rfl
    simp only [plainWrites, hv, hL, Bool.true_eq_false, if_false]
    rfl
  · have hv' : v = .invalid := by cases v <;> simp [isValidV] at hv ⊢
    subst hv'
    simp [plainWrites, plainWalk, derefPlain, isValidV]

/-- C8: indirection is transparent.  Hashing a pointer to a value equals
hashing the value itself whenever neither traversal trips the cycle guard
(the instrumentation flag is `false`, as it is for every value
representing genuine acyclic Go data); interface wrapping never changes
the hash; and a nil reference contributes nothing and succeeds, returning
the offset basis. -/
theorem c8_indirection_transparent :
    (∀ (a : Nat) (v : GoValue),
        (deepHash (.ptrV (some (a, v))) false [] "" []).2.2 = false →
        (deepHash v false [] "" []).2.2 = false →
        Hash (.ptrV (some (a, v))) = Hash v) ∧
    (∀ v : GoValue, Hash (.ifaceV (some v)) = Hash v) ∧
    Hash (.ptrV none) = fnvBasis ∧
    (deepHash (.ptrV none) false [] "" []).1 = [] := by
  refine ⟨?_, ?_, ?_, ?_⟩
  · intro a v h1 h2
    simp only [Hash]
    rw [bridge_all.1 _ _ _ _ _ h1, bridge_all.1 _ _ _ _ _ h2, plainWrites_ptr]
  · intro v
    by_cases hv : isValidV v = true
    · simp only [Hash]
      rw [deepHash_not_addr (.ifaceV (some v)) [] "" [] rfl,
        deepHash_not_addr v [] "" [] hv]
      have hd : derefV (GoValue.ifaceV (some v)) false [] = derefV v false [] := rfl
      rw [hd]
    · have hv' : v = .invalid := by cases v <;> simp [isValidV] at hv ⊢
      subst hv'
      simp [Hash, deepHash, walk, derefV, isValidV]
  · simp [Hash, deepHash, walk, derefV, isValidV, bytesOfWrites, fnv64]
  · simp [deepHash, walk, derefV, isValidV]

/-- Witness for C8 at a concrete record that itself contains a pointer
field: one pointer layer does not change the hash. -/
theorem c8_indirection_transparent_witness :
    Hash (.ptrV (some (1, .structV [("S", .str "x"), ("P", .ptrV (some (7, .str "y")))])))
      = Hash (.structV [("S", .str "x"), ("P", .ptrV (some (7, .str "y")))]) := by
  apply c8_indirection_transparent.1
  · simp [deepHash, walk, walkFields, derefV, isValidV, containsA, lookupGD, lookupA,
      storeA, removeA, typeTag, appendName, strBytes]
  · simp [deepHash, walk, walkFields, derefV, isValidV, containsA, lookupGD, lookupA,
      storeA, removeA, typeTag, appendName, strBytes]
